import Mathlib

/-!
Verification development for the `Lasttry` YouTube-downloader repository
(`video_downloader.py`, `app.py`).

The Python code is shallowly embedded: pure fragments become Lean
functions; the Python `dict` used for format deduplication becomes an
association list with position-preserving updates (CPython dicts keep
insertion order, and updating an existing key keeps its position);
Python `list.sort(key=…, reverse=True)` (a stable sort) becomes a stable
descending insertion sort; machine integers become `Nat`/`Int`.  Numeric
fields that the source reads from yt-dlp metadata (`filesize`, `tbr`,
`abr`) are embedded as `Nat` with `0` standing for Python's
`None`/`0`/missing, exactly the values the source's truthiness tests
collapse together.  The float display field `filesize_mb` (a rounded
float, used for display only) is not modelled.  String character classes
(`\w`, `\s`) are modelled over their ASCII meaning, which is the meaning
the source exercises on URL shapes and labels.
-/

namespace VideoDownloader

/-- Format type tag: Python uses the strings `'video'` / `'audio'`. -/
inductive FType where
  | video
  | audio
deriving DecidableEq, Repr

/-- The string the Python code stores in the `type` field. -/
def FType.str : FType → String
  | .video => "video"
  | .audio => "audio"

/-- One raw format candidate as read from the yt-dlp metadata in
`get_video_info` (video_downloader.py lines 81-89).  `height`, `width`,
`filesize`, `filesize_approx`, `tbr`, `abr` use `0` for missing/None,
matching the `fmt.get(…, 0)` defaults and Python truthiness. -/
structure FormatCandidate where
  format_id : String
  height : Nat
  width : Nat
  ext : String
  vcodec : String
  acodec : String
  filesize : Nat
  filesize_approx : Nat
  tbr : Nat
  abr : Nat
deriving DecidableEq, Repr

/-- One processed format entry as built in `get_video_info`
(video_downloader.py lines 121-131), minus the display-only float field
`filesize_mb`. -/
structure ProcessedFormat where
  format_id : String
  quality : String
  ext : String
  type : FType
  filesize : Nat
  tbr : Nat
  height : Nat
  width : Nat
deriving DecidableEq, Repr

/-- `filesize = fmt.get('filesize', 0) or fmt.get('filesize_approx', 0)`
(video_downloader.py line 88). -/
def effFilesize (f : FormatCandidate) : Nat :=
  if f.filesize ≠ 0 then f.filesize else f.filesize_approx

/-- Python's `s.startswith(pre)`, as a character-list prefix test. -/
def pyStartsWith (s pre : String) : Bool :=
  pre.data.isPrefixOf s.data

/-- Filtering and classification of one candidate
(video_downloader.py lines 91-109): storyboard/empty ids are skipped,
then the `if`/`elif` ladder assigns a type and quality label, and
anything not matched is skipped (`continue`). -/
def classify (f : FormatCandidate) : Option ProcessedFormat :=
  if f.format_id = "" ∨ pyStartsWith f.format_id "sb" then
    none
  else if f.vcodec ≠ "none" ∧ f.acodec ≠ "none" ∧ f.height ≠ 0 ∧ 144 ≤ f.height then
    some ⟨f.format_id, toString f.height ++ "p (with audio)", f.ext, .video,
          effFilesize f, f.tbr, f.height, f.width⟩
  else if f.vcodec ≠ "none" ∧ f.height ≠ 0 ∧ 144 ≤ f.height then
    some ⟨f.format_id, toString f.height ++ "p", f.ext, .video,
          effFilesize f, f.tbr, f.height, f.width⟩
  else if f.acodec ≠ "none" ∧ f.vcodec = "none" then
    some ⟨f.format_id,
          (if f.abr ≠ 0 then "Audio " ++ toString f.abr ++ "kbps"
           else "Audio (" ++ f.ext.toUpper ++ ")"),
          f.ext, .audio, effFilesize f, f.tbr, f.height, f.width⟩
  else
    none

/-- Deduplication key `f"{format_type}_{quality}_{ext}"`
(video_downloader.py line 112). -/
def keyOf (p : ProcessedFormat) : String :=
  p.type.str ++ "_" ++ p.quality ++ "_" ++ p.ext

/-- Score of a stored/candidate entry:
`filesize or (tbr * 1000 if tbr else 0)` (video_downloader.py
lines 115 and 118; both expressions collapse to this function). -/
def score (p : ProcessedFormat) : Nat :=
  if p.filesize ≠ 0 then p.filesize else p.tbr * 1000

/-- The deduplication dictionary: an association list from key strings to
processed formats, in insertion order. -/
abbrev FormatDict := List (String × ProcessedFormat)

/-- Dictionary membership test / lookup (`key in processed_formats`,
`processed_formats[key]`). -/
def lookupKey : FormatDict → String → Option ProcessedFormat
  | [], _ => none
  | (k, v) :: d, k0 => if k = k0 then some v else lookupKey d k0

/-- `processed_formats[key] = …` on an existing key: CPython dicts keep
the key at its original position. -/
def replaceKey : FormatDict → String → ProcessedFormat → FormatDict
  | [], _, _ => []
  | (k, v) :: d, k0, v0 =>
    if k = k0 then (k, v0) :: d else (k, v) :: replaceKey d k0 v0

/-- One iteration of the deduplication loop body for an already-classified
candidate (video_downloader.py lines 111-131):
`if key not in processed_formats or current_score > existing_score:
   processed_formats[key] = {...}`. -/
def insertFormat (d : FormatDict) (p : ProcessedFormat) : FormatDict :=
  match lookupKey d (keyOf p) with
  | none => d ++ [(keyOf p, p)]
  | some old => if score old < score p then replaceKey d (keyOf p) p else d

/-- The full deduplication pass over the raw candidate list
(video_downloader.py lines 78-131). -/
def processedDict (formats : List FormatCandidate) : FormatDict :=
  (formats.filterMap classify).foldl insertFormat []

/-- Substring test, modelling Python's `in` on strings. -/
def containsSub (needle : List Char) : List Char → Bool
  | [] => needle.isEmpty
  | c :: rest => needle.isPrefixOf (c :: rest) || containsSub needle rest

/-- `'(with audio)' in fmt['quality']` (video_downloader.py line 148). -/
def hasWithAudio (q : String) : Bool :=
  containsSub "(with audio)".data q.data

/-- `int(fmt['quality'].split('p')[0]) if 'p' in fmt['quality'] else 0`
(video_downloader.py line 146).  On the labels produced by `classify`
the text before the first `'p'` is always a decimal numeral; `int()`
would raise otherwise and the `getD 0` default is never reached. -/
def qualityNum (q : String) : Nat :=
  if q.data.contains 'p' then
    (String.mk (q.data.takeWhile (fun c => c ≠ 'p'))).toNat?.getD 0
  else 0

/-- The sort key `format_priority` (video_downloader.py lines 144-149):
the pair `(has_audio, quality_num)`. -/
def format_priority (p : ProcessedFormat) : Bool × Nat :=
  (hasWithAudio p.quality, qualityNum p.quality)

/-- Strict lexicographic order on the sort key, with `False < True` as in
Python tuple comparison. -/
def prioLt (a b : Bool × Nat) : Bool :=
  (!a.1 && b.1) || (a.1 == b.1 && decide (a.2 < b.2))

/-- Insert one element into a list that is sorted descending by
`format_priority`, after all elements of greater-or-equal key: the
arrangement a stable descending sort gives to a later arrival. -/
def insertSorted (p : ProcessedFormat) : List ProcessedFormat → List ProcessedFormat
  | [] => [p]
  | q :: rest =>
    if prioLt (format_priority q) (format_priority p) then p :: q :: rest
    else q :: insertSorted p rest

/-- `video_formats.sort(key=format_priority, reverse=True)`
(video_downloader.py line 151): Python's sort is stable; a stable
descending sort is exactly left-to-right insertion after ties. -/
def sortFormats (l : List ProcessedFormat) : List ProcessedFormat :=
  l.foldl (fun acc p => insertSorted p acc) []

/-- The `video_formats` group (video_downloader.py lines 134-139):
dictionary values, in order, whose type is `'video'`. -/
def video_formats (formats : List FormatCandidate) : List ProcessedFormat :=
  ((processedDict formats).map Prod.snd).filter (fun p => p.type == FType.video)

/-- The `audio_formats` group (video_downloader.py lines 134-141):
dictionary values, in order, whose type is not `'video'`; never
re-sorted. -/
def audio_formats (formats : List FormatCandidate) : List ProcessedFormat :=
  ((processedDict formats).map Prod.snd).filter (fun p => !(p.type == FType.video))

/-- The final `video_info['formats']` list
(video_downloader.py lines 76-153): sorted video group followed by the
audio group in insertion order. -/
def selectFormats (formats : List FormatCandidate) : List ProcessedFormat :=
  sortFormats (video_formats formats) ++ audio_formats formats

/-- Maximum score over a list of processed formats (0 on the empty
list). -/
def maxScore (l : List ProcessedFormat) : Nat :=
  l.foldr (fun p m => max (score p) m) 0

/-- All classified candidates that fall into the deduplication group of
key `k`, in encounter order. -/
def candGroup (formats : List FormatCandidate) (k : String) : List ProcessedFormat :=
  (formats.filterMap classify).filter (fun p => keyOf p == k)

/-! ## URL validation (video_downloader.py lines 13-22)

The four regular expressions are compiled by hand.  Each is a prefix
match (`re.match` anchors at the start only), case-insensitive
(`re.IGNORECASE`; modelled by lowering the input, the ASCII meaning the
patterns exercise), of the form
`(?:https?://)?(?:www\.)?LITERAL[\w-]+` — except the `youtu.be` pattern,
which has no `(?:www\.)?` group.  The optional groups are expanded into
explicit alternatives; since each group is a fixed literal this is
exactly the backtracking regex semantics.  `[\w-]+` at the end of a
prefix match is satisfied exactly when one word-or-hyphen character
follows the literal. -/

/-- One character of the class `[\w-]` (ASCII). -/
def isWordDash (c : Char) : Bool :=
  c.isAlpha || c.isDigit || c == '_' || c == '-'

/-- The input string, lowered character-wise (re.IGNORECASE). -/
def lowered (s : String) : List Char :=
  s.data.map Char.toLower

/-- Expansions of `(?:https?://)?`. -/
def schemeOpts : List (List Char) :=
  ["https://".data, "http://".data, []]

/-- Expansions of `(?:www\.)?` when the pattern has that group, else just
the empty alternative. -/
def wwwOpts : Bool → List (List Char)
  | true => ["www.".data, []]
  | false => [[]]

/-- Prefix-match one pattern `(?:https?://)?(?:www\.)?LIT[\w-]+` against
the (lowered) input. -/
def matchShape (www : Bool) (lit : List Char) (url : String) : Bool :=
  schemeOpts.any fun sch =>
    (wwwOpts www).any fun pre =>
      (sch ++ pre ++ lit).isPrefixOf (lowered url) &&
        (match (lowered url).drop (sch ++ pre ++ lit).length with
         | c :: _ => isWordDash c
         | [] => false)

/-- `is_valid_youtube_url` (video_downloader.py lines 13-22): `any` over
the four patterns.  Only the `youtu.be` pattern lacks the optional
`www.` group. -/
def is_valid_youtube_url (url : String) : Bool :=
  matchShape true "youtube.com/watch?v=".data url ||
  matchShape true "youtube.com/shorts/".data url ||
  matchShape false "youtu.be/".data url ||
  matchShape true "youtube.com/embed/".data url

/-- The validator as the claim words it: the same four URL shapes, each
with optional scheme and optional `www.` — including the `youtu.be`
short-link shape.  Stated for comparison against
`is_valid_youtube_url`. -/
def claimed_is_valid (url : String) : Bool :=
  matchShape true "youtube.com/watch?v=".data url ||
  matchShape true "youtube.com/shorts/".data url ||
  matchShape true "youtu.be/".data url ||
  matchShape true "youtube.com/embed/".data url

/-- Declarative reading of one URL shape: the lowered input decomposes
into an allowed scheme, an allowed `www.` part, the literal, and at
least one trailing word-or-hyphen character (the rest of the input is
unconstrained: `re.match` is a prefix match). -/
def MatchesShape (www : Bool) (lit : List Char) (url : String) : Prop :=
  ∃ sch pre c rest, sch ∈ schemeOpts ∧ pre ∈ wwwOpts www ∧
    lowered url = sch ++ (pre ++ (lit ++ c :: rest)) ∧ isWordDash c = true

/-! ## Duration formatting (video_downloader.py lines 24-36) -/

/-- Python's `f"{n:02d}"` for a nonnegative integer. -/
def pad2 (n : Nat) : String :=
  if n < 10 then "0" ++ toString n else toString n

/-- `format_duration` (video_downloader.py lines 24-36).  For an integer
input, `not duration_seconds or duration_seconds <= 0` is exactly
`duration_seconds ≤ 0`. -/
def format_duration (duration_seconds : Int) : String :=
  if duration_seconds ≤ 0 then "Unknown"
  else
    let n := duration_seconds.toNat
    let hours := n / 3600
    let minutes := (n % 3600) / 60
    let seconds := n % 60
    if hours > 0 then pad2 hours ++ ":" ++ pad2 minutes ++ ":" ++ pad2 seconds
    else pad2 minutes ++ ":" ++ pad2 seconds

/-! ## Filename sanitization (video_downloader.py lines 179-180 and
348-350): `re.sub(r'[^\w\s-]', '', title).strip()` followed by
`re.sub(r'[-\s]+', '_', …)[:50]`. -/

/-- ASCII `\s`: the whitespace characters `re` matches. -/
def isSpaceChar (c : Char) : Bool :=
  c == ' ' || c == '\t' || c == '\n' || c == '\r' || c == '\x0b' || c == '\x0c'

/-- ASCII `\w`. -/
def isWordChar (c : Char) : Bool :=
  c.isAlpha || c.isDigit || c == '_'

/-- One character of the run class `[-\s]`. -/
def isRunChar (c : Char) : Bool :=
  isSpaceChar c || c == '-'

/-- Python `str.strip()`: drop whitespace from both ends. -/
def pyStrip (l : List Char) : List Char :=
  ((l.dropWhile isSpaceChar).reverse.dropWhile isSpaceChar).reverse

/-- `re.sub(r'[-\s]+', '_', s)`: every maximal run of whitespace/hyphen
characters becomes one underscore.  The flag records whether the
previous character belonged to a run. -/
def collapseAux : List Char → Bool → List Char
  | [], _ => []
  | c :: rest, inRun =>
    if isRunChar c then
      if inRun then collapseAux rest true
      else '_' :: collapseAux rest true
    else c :: collapseAux rest false

/-- The safe-filename derivation applied to a media title
(video_downloader.py lines 179-180; identically at lines 349-350). -/
def sanitize_title (title : String) : String :=
  let s1 := title.data.filter (fun c => isWordChar c || isSpaceChar c || c == '-')
  String.mk ((collapseAux (pyStrip s1) false).take 50)

/-! ## Video-mode format selector (video_downloader.py lines 199-209) -/

/-- The format-selection expression built in `download_video` for
`download_type == 'video'` (video_downloader.py lines 202-209); the
Python truthiness test `if format_id:` is nonemptiness. -/
def video_format_selector (format_id : String) : String :=
  if format_id ≠ "" then
    format_id ++
      "+bestaudio/best[vcodec!=\"none\"][acodec!=\"none\"]/best[height<=?1080][vcodec!=\"none\"][acodec!=\"none\"]/best"
  else
    "best[vcodec!=\"none\"][acodec!=\"none\"]/best[height<=?1080]"

/-- Split a character list at every `'/'`: the alternatives of a yt-dlp
format-selection expression, in order. -/
def splitSlash : List Char → List (List Char)
  | [] => [[]]
  | c :: rest =>
    if c = '/' then [] :: splitSlash rest
    else
      match splitSlash rest with
      | [] => [[c]]
      | g :: gs => (c :: g) :: gs

/-- The alternative list the claim asserts: exactly three alternatives —
chosen id plus best audio, both-codec formats capped at height 1080,
best overall.  Stated for comparison against `video_format_selector`. -/
def claimedSelectorAlts (format_id : String) : List (List Char) :=
  [format_id.data ++ "+bestaudio".data,
   "best[height<=?1080][vcodec!=\"none\"][acodec!=\"none\"]".data,
   "best".data]

/-! ## Direct-download path and the `/download` endpoint
(video_downloader.py lines 279-287, app.py lines 55-87) -/

/-- Result of `get_direct_download_url` as far as the `/download`
endpoint consumes it: either a payload (direct url and filename) or an
error string. -/
inductive DirectOutcome where
  | ok (url filename : String)
  | err (msg : String)
deriving DecidableEq, Repr

/-- `get_direct_download_url` (video_downloader.py lines 279-287).  The
function rejects `download_type == 'video'` before any extraction work;
the audio path delegates to the external extractor, whose outcome is the
parameter `extractOutcome`.  The video-mode result does not depend on
`extractOutcome`, which is exactly the "no extraction performed"
property. -/
def get_direct_download_url (extractOutcome : DirectOutcome)
    (_url _format_id : String) (download_type : String) : DirectOutcome :=
  if download_type = "video" then
    .err "Direct download not supported for videos with audio. Using server download."
  else
    extractOutcome

/-- The `/download` endpoint (app.py lines 55-87) as (status, payload):
parameter validation, URL validation, then the result of
`get_direct_download_url`; a success result is answered with HTTP 200,
a failure with HTTP 400.  `url` stands for the already-stripped request
field. -/
def download_endpoint (extractOutcome : DirectOutcome)
    (url format_id download_type : String) : Nat × String :=
  if url = "" || format_id = "" then
    (400, "Missing required parameters. Please select a format and try again.")
  else if !(is_valid_youtube_url url) then
    (400, "Please provide a valid YouTube URL")
  else
    match get_direct_download_url extractOutcome url format_id download_type with
    | .ok u _ => (200, u)
    | .err e => (400, e)

/-! ## `/server_download` exception branch (app.py lines 128-130) -/

/-- The response built by the `except` branch of `server_download`
(app.py line 130): HTTP 500 with body
`{'error': f'Server error: ' + str(e)}`, where `e` is the caught
exception; the second component is the client-visible error message. -/
def server_download_error_response (e : String) : Nat × String :=
  (500, "Server error: " ++ e)

/-- A concrete combined-stream candidate (a 720p mp4 with both codecs),
used to instantiate the classification theorem. -/
def witCand : FormatCandidate :=
  ⟨"22", 720, 1280, "mp4", "avc1", "mp4a", 1000, 0, 0, 0⟩

/-- The accumulator step of the per-key deduplication: keep the old
entry unless the new candidate scores strictly higher.  `lookupKey`
after the whole loop equals a `foldl` of this step over the key's
group. -/
def chooseB (o : Option ProcessedFormat) (p : ProcessedFormat) : Option ProcessedFormat :=
  match o with
  | none => some p
  | some old => if score old < score p then some p else some old

end VideoDownloader

namespace VideoDownloader

/-! ## Helper lemmas -/

lemma mem_dropWhile {p : Char → Bool} {l : List Char} {c : Char}
    (h : c ∈ l.dropWhile p) : c ∈ l := by
  induction l with
  | nil => simp [List.dropWhile] at h
  | cons a t ih =>
    rw [List.dropWhile] at h
    by_cases hp : p a
    · simp only [hp] at h
      exact List.mem_cons_of_mem a (ih h)
    · simpa [hp] using h

lemma mem_pyStrip {l : List Char} {c : Char} (h : c ∈ pyStrip l) : c ∈ l := by
  unfold pyStrip at h
  rw [List.mem_reverse] at h
  have h1 := mem_dropWhile h
  rw [List.mem_reverse] at h1
  exact mem_dropWhile h1

lemma mem_collapseAux {l : List Char} {b : Bool} {c : Char}
    (h : c ∈ collapseAux l b) : c = '_' ∨ (c ∈ l ∧ isRunChar c = false) := by
  induction l generalizing b with
  | nil => simp [collapseAux] at h
  | cons a t ih =>
    rw [collapseAux] at h
    by_cases hr : isRunChar a
    · simp only [hr, if_true] at h
      cases b with
      | true =>
        rcases ih h with h'' | ⟨hm, hnr⟩
        · exact Or.inl h''
        · exact Or.inr ⟨List.mem_cons_of_mem a hm, hnr⟩
      | false =>
        rcases List.mem_cons.mp h with h' | h'
        · exact Or.inl h'
        · rcases ih h' with h'' | ⟨hm, hnr⟩
          · exact Or.inl h''
          · exact Or.inr ⟨List.mem_cons_of_mem a hm, hnr⟩
    · simp only [hr, if_false] at h
      rcases List.mem_cons.mp h with h' | h'
      · subst h'
        exact Or.inr ⟨List.mem_cons_self _ _, Bool.of_not_eq_true hr⟩
      · rcases ih h' with h'' | ⟨hm, hnr⟩
        · exact Or.inl h''
        · exact Or.inr ⟨List.mem_cons_of_mem a hm, hnr⟩

lemma containsSub_append_self (a n : List Char) : containsSub n (a ++ n) = true := by
  induction a with
  | nil =>
    cases n with
    | nil => rfl
    | cons c t =>
      rw [List.nil_append, containsSub]
      have : (c :: t).isPrefixOf (c :: t) = true :=
        List.isPrefixOf_iff_prefix.mpr (List.prefix_refl _)
      simp [this]
  | cons c a' ih =>
    rw [List.cons_append, containsSub, ih]
    simp

/-! ## Claim theorems: simple components -/

/-- Claim C9: an empty raw format list yields an empty processed format
list (and an empty deduplication dictionary); the processing is a total
function, so no exception can be raised. -/
theorem empty_input_empty_output :
    selectFormats [] = [] ∧ processedDict [] = [] :=
  ⟨rfl, rfl⟩

/-- Claim C5: `format_duration` returns `"Unknown"` for zero or negative
durations, zero-padded `MM:SS` for positive durations under one hour,
zero-padded `HH:MM:SS` from one hour up, and in particular maps `45` to
`"00:45"` and `3725` to `"01:02:05"`. -/
theorem format_duration_spec (d : Int) :
    (d ≤ 0 → format_duration d = "Unknown") ∧
    (0 < d → d < 3600 →
      format_duration d = pad2 (d.toNat / 60) ++ ":" ++ pad2 (d.toNat % 60)) ∧
    (3600 ≤ d →
      format_duration d =
        pad2 (d.toNat / 3600) ++ ":" ++ pad2 (d.toNat % 3600 / 60) ++ ":" ++
          pad2 (d.toNat % 60)) ∧
    format_duration 45 = "00:45" ∧ format_duration 3725 = "01:02:05" := by
  refine ⟨fun h => ?_, fun h1 h2 => ?_, fun h => ?_, by decide, by decide⟩
  · rw [format_duration, if_pos h]
  · rw [format_duration, if_neg (by omega)]
    have hd : d.toNat < 3600 := by omega
    have h0 : d.toNat / 3600 = 0 := Nat.div_eq_of_lt hd
    have hm : d.toNat % 3600 = d.toNat := Nat.mod_eq_of_lt hd
    simp only [h0, hm, gt_iff_lt, Nat.lt_irrefl, if_false]
  · rw [format_duration, if_neg (by omega)]
    have h0 : 0 < d.toNat / 3600 := by
      apply Nat.div_pos ?_ (by norm_num)
      omega
    simp only [gt_iff_lt, h0, if_true]

/-- Claim C5 witness: the theorem applied at `-3`, `200` and `3725`. -/
theorem format_duration_spec_witness :
    format_duration (-3) = "Unknown" ∧
    format_duration 200 = pad2 3 ++ ":" ++ pad2 20 ∧
    format_duration 3725 = pad2 1 ++ ":" ++ pad2 2 ++ ":" ++ pad2 5 := by
  refine ⟨(format_duration_spec (-3)).1 (by decide),
          ?_, ?_⟩
  · have h := (format_duration_spec 200).2.1 (by decide) (by decide)
    have e1 : (200 : Int).toNat / 60 = 3 := by decide
    have e2 : (200 : Int).toNat % 60 = 20 := by decide
    rw [e1, e2] at h
    exact h
  · have h := (format_duration_spec 3725).2.2.1 (by decide)
    have e1 : (3725 : Int).toNat / 3600 = 1 := by decide
    have e2 : (3725 : Int).toNat % 3600 / 60 = 2 := by decide
    have e3 : (3725 : Int).toNat % 60 = 5 := by decide
    rw [e1, e2, e3] at h
    exact h

/-- Claim C6: the safe filename derived from a media title is at most 50
characters long, consists only of word characters (the non-word
characters having been stripped and the whitespace/hyphen runs collapsed
to single underscores), and the title `"Amazing Video!! (2024)"` yields
`"Amazing_Video_2024"`. -/
theorem sanitize_title_spec (title : String) :
    (sanitize_title title).length ≤ 50 ∧
    (sanitize_title title).data.all isWordChar = true ∧
    sanitize_title "Amazing Video!! (2024)" = "Amazing_Video_2024" := by
  refine ⟨?_, ?_, by decide⟩
  · show ((collapseAux (pyStrip _) false).take 50).length ≤ 50
    rw [List.length_take]
    exact min_le_left _ _
  · rw [List.all_eq_true]
    intro c hc
    have hc' : c ∈ collapseAux (pyStrip (title.data.filter
        (fun c => isWordChar c || isSpaceChar c || c == '-'))) false :=
      List.mem_of_mem_take hc
    rcases mem_collapseAux hc' with h | ⟨h, hnr⟩
    · subst h; rfl
    · have h2 := mem_pyStrip h
      have h3 := (List.mem_filter.mp h2).2
      simp only [Bool.or_eq_true] at h3
      rcases h3 with (hw | hs) | hd
      · exact hw
      · exact absurd hnr (by simp [isRunChar, hs])
      · exact absurd hnr (by simp [isRunChar, hd])

end VideoDownloader

namespace VideoDownloader

/-! ## Claim theorems: endpoints and selector expression -/

/-- Claim C10: with `download_type = 'video'`, `get_direct_download_url`
returns the fixed failure message without consulting the extractor (its
result is independent of the extraction outcome), so the `/download`
endpoint answers every video-mode request with HTTP 400 — never 200 —
whatever the request contents. -/
theorem download_video_mode_always_400 (ex ex2 : DirectOutcome) (url fid : String) :
    get_direct_download_url ex url fid "video" =
      DirectOutcome.err
        "Direct download not supported for videos with audio. Using server download." ∧
    (download_endpoint ex url fid "video").1 = 400 ∧
    (download_endpoint ex url fid "video").1 ≠ 200 ∧
    download_endpoint ex url fid "video" = download_endpoint ex2 url fid "video" := by
  have hep : ∀ e : DirectOutcome,
      download_endpoint e url fid "video" =
        if url = "" || fid = "" then
          (400, "Missing required parameters. Please select a format and try again.")
        else if !(is_valid_youtube_url url) then
          (400, "Please provide a valid YouTube URL")
        else
          (400, "Direct download not supported for videos with audio. Using server download.") := by
    intro e
    rw [download_endpoint]
    rfl
  refine ⟨rfl, ?_, ?_, ?_⟩
  · rw [hep ex]; split_ifs <;> rfl
  · rw [hep ex]; split_ifs <;> simp
  · rw [hep ex, hep ex2]

/-- Claim C8 counterexample: the client-visible 500 message of
`server_download` is not a fixed generic message — it varies with the
caught exception, because the code interpolates `str(e)` into the
response body. -/
theorem server_download_message_not_fixed :
    (server_download_error_response "boom").2 ≠ (server_download_error_response "oops").2 ∧
    (server_download_error_response "boom").1 = 500 :=
  ⟨by decide, rfl⟩

/-- Claim C8 as amended: an unexpected internal exception in
`server_download` yields HTTP 500 whose client-visible message is
`"Server error: "` followed by the exception detail — the detail is
embedded in the response body rather than hidden from the client. -/
theorem server_download_error_spec (e : String) :
    (server_download_error_response e).1 = 500 ∧
    (server_download_error_response e).2 = "Server error: " ++ e ∧
    containsSub e.data (server_download_error_response e).2.data = true := by
  refine ⟨rfl, rfl, ?_⟩
  show containsSub e.data ("Server error: " ++ e).data = true
  rw [String.data_append]
  exact containsSub_append_self _ _

/-- Claim C7 counterexample: for the chosen id `"137"` the constructed
format-selection expression does not consist of the three claimed
alternatives — the code inserts a fourth, uncapped both-codec
alternative between the merge alternative and the 1080-capped one. -/
theorem video_selector_not_three_alternatives :
    splitSlash (video_format_selector "137").data ≠ claimedSelectorAlts "137" := by
  decide

lemma splitSlash_append {l : List Char} (h : '/' ∉ l) {rest g : List Char}
    {gs : List (List Char)} (hr : splitSlash rest = g :: gs) :
    splitSlash (l ++ rest) = (l ++ g) :: gs := by
  induction l with
  | nil => simpa using hr
  | cons c t ih =>
    have hc : ¬ c = '/' := fun hh => h (hh ▸ List.mem_cons_self _ _)
    rw [List.cons_append, splitSlash, if_neg hc,
        ih (fun hm => h (List.mem_cons_of_mem _ hm))]
    rfl

/-- Claim C7 as amended: for every non-empty chosen format id (not
itself containing an alternative separator), the video-mode
format-selection expression has exactly four alternatives, in order:
the chosen id merged with best audio; best with both codecs present
(uncapped); best with both codecs present capped at height 1080; best
overall. -/
theorem video_selector_four_alternatives (fid : String) (h1 : fid ≠ "")
    (h2 : '/' ∉ fid.data) :
    splitSlash (video_format_selector fid).data =
      [fid.data ++ "+bestaudio".data,
       "best[vcodec!=\"none\"][acodec!=\"none\"]".data,
       "best[height<=?1080][vcodec!=\"none\"][acodec!=\"none\"]".data,
       "best".data] := by
  rw [video_format_selector, if_pos h1, String.data_append]
  have hr : splitSlash ("+bestaudio/best[vcodec!=\"none\"][acodec!=\"none\"]/best[height<=?1080][vcodec!=\"none\"][acodec!=\"none\"]/best").data =
      "+bestaudio".data ::
        ["best[vcodec!=\"none\"][acodec!=\"none\"]".data,
         "best[height<=?1080][vcodec!=\"none\"][acodec!=\"none\"]".data,
         "best".data] := by decide
  rw [splitSlash_append h2 hr]

/-- Claim C7 witness: the amended theorem applied at the concrete id
`"137"`. -/
theorem video_selector_four_alternatives_witness :
    splitSlash (video_format_selector "137").data =
      ["137".data ++ "+bestaudio".data,
       "best[vcodec!=\"none\"][acodec!=\"none\"]".data,
       "best[height<=?1080][vcodec!=\"none\"][acodec!=\"none\"]".data,
       "best".data] :=
  video_selector_four_alternatives "137" (by decide) (by decide)

/-! ## Claim theorems: URL validation -/

/-- Claim C4 counterexample: `"www.youtu.be/abc"` matches the claim's
short-link shape with optional `www.` (both in the executable reading
and in the declarative one), yet `is_valid_youtube_url` returns false,
because the code's `youtu.be` pattern has no optional `www.` group. -/
theorem url_validator_rejects_www_short_link :
    claimed_is_valid "www.youtu.be/abc" = true ∧
    MatchesShape true "youtu.be/".data "www.youtu.be/abc" ∧
    is_valid_youtube_url "www.youtu.be/abc" = false := by
  refine ⟨by decide, ?_, by decide⟩
  refine ⟨[], "www.".data, 'a', "bc".data, ?_, ?_, by decide, by decide⟩
  · simp [schemeOpts]
  · simp [wwwOpts]

lemma matchShape_eq_true_iff (www : Bool) (lit : List Char) (url : String) :
    matchShape www lit url = true ↔ MatchesShape www lit url := by
  unfold matchShape MatchesShape
  rw [List.any_eq_true]
  constructor
  · rintro ⟨sch, hsch, hin⟩
    rw [List.any_eq_true] at hin
    obtain ⟨pre, hpre, hmatch⟩ := hin
    rw [Bool.and_eq_true] at hmatch
    obtain ⟨hpref, hrest⟩ := hmatch
    obtain ⟨t, ht⟩ := List.isPrefixOf_iff_prefix.mp hpref
    rw [← ht, List.drop_left] at hrest
    cases t with
    | nil => simp at hrest
    | cons c rest =>
      exact ⟨sch, pre, c, rest, hsch, hpre, by rw [← ht]; simp [List.append_assoc], hrest⟩
  · rintro ⟨sch, pre, c, rest, hsch, hpre, hurl, hword⟩
    refine ⟨sch, hsch, ?_⟩
    rw [List.any_eq_true]
    refine ⟨pre, hpre, ?_⟩
    rw [Bool.and_eq_true]
    have hform : lowered url = (sch ++ pre ++ lit) ++ c :: rest := by
      rw [hurl]; simp [List.append_assoc]
    constructor
    · rw [hform]; exact List.isPrefixOf_iff_prefix.mpr (List.prefix_append _ _)
    · rw [hform, List.drop_left]; exact hword

/-- Claim C4 as amended: `is_valid_youtube_url` returns true exactly for
the strings that match, case-insensitively and anchored at the start,
one of the four recognized URL shapes — each with optional scheme, and
with optional `www.` on the three `youtube.com` shapes but not on the
`youtu.be` short-link shape; every other string, the empty string and
other hosts included, gets false. -/
theorem url_validator_spec (url : String) :
    (is_valid_youtube_url url = true ↔
      (MatchesShape true "youtube.com/watch?v=".data url ∨
       MatchesShape true "youtube.com/shorts/".data url ∨
       MatchesShape false "youtu.be/".data url ∨
       MatchesShape true "youtube.com/embed/".data url)) ∧
    is_valid_youtube_url "" = false ∧
    is_valid_youtube_url "https://vimeo.com/123" = false := by
  refine ⟨?_, by decide, by decide⟩
  unfold is_valid_youtube_url
  simp only [Bool.or_eq_true, matchShape_eq_true_iff]
  tauto

end VideoDownloader

namespace VideoDownloader

/-! ## Membership lemmas for the deduplication dictionary and the sort -/

lemma mem_replaceKey {d : FormatDict} {k : String} {v : ProcessedFormat}
    {e : String × ProcessedFormat} (h : e ∈ replaceKey d k v) :
    e ∈ d ∨ e = (k, v) := by
  induction d with
  | nil => simp [replaceKey] at h
  | cons a t ih =>
    obtain ⟨k1, v1⟩ := a
    rw [replaceKey] at h
    by_cases hk : k1 = k
    · rw [if_pos hk] at h
      rcases List.mem_cons.mp h with h' | h'
      · exact Or.inr (by rw [h', hk])
      · exact Or.inl (List.mem_cons_of_mem _ h')
    · rw [if_neg hk] at h
      rcases List.mem_cons.mp h with h' | h'
      · exact Or.inl (h' ▸ List.mem_cons_self _ _)
      · rcases ih h' with h'' | h''
        · exact Or.inl (List.mem_cons_of_mem _ h'')
        · exact Or.inr h''

lemma mem_insertFormat {d : FormatDict} {p : ProcessedFormat}
    {e : String × ProcessedFormat} (h : e ∈ insertFormat d p) :
    e ∈ d ∨ e = (keyOf p, p) := by
  unfold insertFormat at h
  split at h
  · rcases List.mem_append.mp h with h' | h'
    · exact Or.inl h'
    · exact Or.inr (by simpa using h')
  · split at h
    · exact mem_replaceKey h
    · exact Or.inl h

lemma mem_foldl_insertFormat {ps : List ProcessedFormat} :
    ∀ {d : FormatDict} {e : String × ProcessedFormat},
      e ∈ ps.foldl insertFormat d → e ∈ d ∨ ∃ p ∈ ps, e = (keyOf p, p) := by
  induction ps with
  | nil => intro d e h; exact Or.inl h
  | cons p t ih =>
    intro d e h
    rw [List.foldl_cons] at h
    rcases ih h with h' | ⟨q, hq, he⟩
    · rcases mem_insertFormat h' with h'' | h''
      · exact Or.inl h''
      · exact Or.inr ⟨p, List.mem_cons_self _ _, h''⟩
    · exact Or.inr ⟨q, List.mem_cons_of_mem _ hq, he⟩

lemma mem_processedDict_snd {fs : List FormatCandidate} {x : ProcessedFormat}
    (h : x ∈ (processedDict fs).map Prod.snd) :
    ∃ f ∈ fs, classify f = some x := by
  obtain ⟨e, he, hx⟩ := List.mem_map.mp h
  rcases mem_foldl_insertFormat he with h' | ⟨p, hp, he'⟩
  · simp at h'
  · obtain ⟨f, hf, hc⟩ := List.mem_filterMap.mp hp
    subst he'
    exact ⟨f, hf, by rw [hc]; exact congrArg some hx⟩

lemma insertSorted_perm (p : ProcessedFormat) (l : List ProcessedFormat) :
    (insertSorted p l).Perm (p :: l) := by
  induction l with
  | nil => exact List.Perm.refl _
  | cons q t ih =>
    rw [insertSorted]
    split
    · exact List.Perm.refl _
    · exact (ih.cons q).trans (List.Perm.swap p q t)

lemma sortFormats_aux_perm (l : List ProcessedFormat) :
    ∀ acc, (l.foldl (fun a p => insertSorted p a) acc).Perm (acc ++ l) := by
  induction l with
  | nil => intro acc; simp
  | cons p t ih =>
    intro acc
    rw [List.foldl_cons]
    exact (ih _).trans (((insertSorted_perm p acc).append_right t).trans
      List.perm_middle.symm)

lemma sortFormats_perm (l : List ProcessedFormat) : (sortFormats l).Perm l := by
  simpa using sortFormats_aux_perm l []

lemma mem_selectFormats {fs : List FormatCandidate} {x : ProcessedFormat}
    (h : x ∈ selectFormats fs) : ∃ f ∈ fs, classify f = some x := by
  unfold selectFormats at h
  rcases List.mem_append.mp h with h' | h'
  · have h2 : x ∈ video_formats fs := ((sortFormats_perm _).mem_iff).mp h'
    exact mem_processedDict_snd (List.mem_filter.mp h2).1
  · exact mem_processedDict_snd (List.mem_filter.mp h').1

lemma classify_format_id_ne {f : FormatCandidate} {x : ProcessedFormat}
    (h : classify f = some x) : x.format_id ≠ "" := by
  by_cases hid : f.format_id = "" ∨ pyStartsWith f.format_id "sb"
  · rw [classify, if_pos hid] at h
    cases h
  · have hne : f.format_id ≠ "" := fun hh => hid (Or.inl hh)
    rw [classify, if_neg hid] at h
    split at h
    · injection h with h2; rw [← h2]; exact hne
    · split at h
      · injection h with h2; rw [← h2]; exact hne
      · split at h
        · injection h with h2; rw [← h2]; exact hne
        · cases h

/-! ## Claim theorem: classification -/

/-- Claim C3: candidates with empty `format_id` or a storyboard id are
discarded; both codecs present with height at least 144 gives a video
entry labelled `"{height}p (with audio)"`; a video codec alone with
height at least 144 gives a video entry labelled `"{height}p"`; an audio
codec alone gives an audio entry labelled `"Audio {bitrate}kbps"` when
the bitrate is known and nonzero, else `"Audio ({EXT})"` with the
extension uppercased; every other candidate is discarded; and every
entry of the final format list carries a non-empty `format_id`. -/
theorem classification_spec (f : FormatCandidate) (fs : List FormatCandidate) :
    (f.format_id = "" ∨ pyStartsWith f.format_id "sb" → classify f = none) ∧
    (f.format_id ≠ "" → pyStartsWith f.format_id "sb" = false →
      f.vcodec ≠ "none" → f.acodec ≠ "none" → 144 ≤ f.height →
      classify f = some ⟨f.format_id, toString f.height ++ "p (with audio)",
        f.ext, .video, effFilesize f, f.tbr, f.height, f.width⟩) ∧
    (f.format_id ≠ "" → pyStartsWith f.format_id "sb" = false →
      f.vcodec ≠ "none" → f.acodec = "none" → 144 ≤ f.height →
      classify f = some ⟨f.format_id, toString f.height ++ "p",
        f.ext, .video, effFilesize f, f.tbr, f.height, f.width⟩) ∧
    (f.format_id ≠ "" → pyStartsWith f.format_id "sb" = false →
      f.vcodec = "none" → f.acodec ≠ "none" →
      classify f = some ⟨f.format_id,
        (if f.abr ≠ 0 then "Audio " ++ toString f.abr ++ "kbps"
         else "Audio (" ++ f.ext.toUpper ++ ")"),
        f.ext, .audio, effFilesize f, f.tbr, f.height, f.width⟩) ∧
    (f.vcodec ≠ "none" → f.height < 144 → classify f = none) ∧
    (f.vcodec = "none" → f.acodec = "none" → classify f = none) ∧
    (∀ p ∈ selectFormats fs, p.format_id ≠ "") := by
  refine ⟨fun h => ?_, fun hne hsb hv ha hh => ?_, fun hne hsb hv ha hh => ?_,
          fun hne hsb hv ha => ?_, fun hv hh => ?_, fun hv ha => ?_,
          fun p hp => ?_⟩
  · exact if_pos h
  · have hid : ¬ (f.format_id = "" ∨ pyStartsWith f.format_id "sb") := by
      rintro (h | h)
      · exact hne h
      · rw [hsb] at h; cases h
    rw [classify, if_neg hid, if_pos ⟨hv, ha, by omega, hh⟩]
  · have hid : ¬ (f.format_id = "" ∨ pyStartsWith f.format_id "sb") := by
      rintro (h | h)
      · exact hne h
      · rw [hsb] at h; cases h
    rw [classify, if_neg hid, if_neg (fun hc => hc.2.1 ha),
        if_pos ⟨hv, by omega, hh⟩]
  · have hid : ¬ (f.format_id = "" ∨ pyStartsWith f.format_id "sb") := by
      rintro (h | h)
      · exact hne h
      · rw [hsb] at h; cases h
    rw [classify, if_neg hid, if_neg (fun hc => hc.1 hv),
        if_neg (fun hc => hc.1 hv), if_pos ⟨ha, hv⟩]
  · by_cases hid : f.format_id = "" ∨ pyStartsWith f.format_id "sb"
    · exact if_pos hid
    · rw [classify, if_neg hid, if_neg (fun hc => absurd hc.2.2.2 (by omega)),
          if_neg (fun hc => absurd hc.2.2 (by omega)), if_neg (fun hc => hv hc.2)]
  · by_cases hid : f.format_id = "" ∨ pyStartsWith f.format_id "sb"
    · exact if_pos hid
    · rw [classify, if_neg hid, if_neg (fun hc => hc.1 hv),
        if_neg (fun hc => hc.1 hv), if_neg (fun hc => hc.1 ha)]
  · exact classify_format_id_ne (mem_selectFormats hp).choose_spec.2

end VideoDownloader

namespace VideoDownloader

/-! ## Dictionary lemmas for deduplication (claim C1) -/

lemma lookupKey_eq_none_iff {d : FormatDict} {k : String} :
    lookupKey d k = none ↔ k ∉ d.map Prod.fst := by
  induction d with
  | nil => simp [lookupKey]
  | cons a t ih =>
    obtain ⟨k1, v1⟩ := a
    by_cases hk : k1 = k
    · subst hk
      simp [lookupKey]
    · rw [lookupKey, if_neg hk, List.map_cons]
      simp only [List.mem_cons, ih]
      constructor
      · rintro h (h' | h')
        · exact hk h'.symm
        · exact h h'
      · intro h h'
        exact h (Or.inr h')

lemma lookupKey_append (d e : FormatDict) (k : String) :
    lookupKey (d ++ e) k =
      match lookupKey d k with
      | some v => some v
      | none => lookupKey e k := by
  induction d with
  | nil => simp [lookupKey]
  | cons a t ih =>
    obtain ⟨k1, v1⟩ := a
    by_cases hk : k1 = k
    · rw [List.cons_append, lookupKey, if_pos hk, lookupKey, if_pos hk]
    · rw [List.cons_append, lookupKey, if_neg hk, lookupKey, if_neg hk, ih]

lemma lookupKey_replaceKey_self {d : FormatDict} {k : String} {v old : ProcessedFormat}
    (h : lookupKey d k = some old) : lookupKey (replaceKey d k v) k = some v := by
  induction d with
  | nil => simp [lookupKey] at h
  | cons a t ih =>
    obtain ⟨k1, v1⟩ := a
    by_cases hk : k1 = k
    · rw [replaceKey, if_pos hk, lookupKey, if_pos hk]
    · rw [lookupKey, if_neg hk] at h
      rw [replaceKey, if_neg hk, lookupKey, if_neg hk]
      exact ih h

lemma lookupKey_replaceKey_ne {d : FormatDict} {k k0 : String} {v : ProcessedFormat}
    (h : k ≠ k0) : lookupKey (replaceKey d k v) k0 = lookupKey d k0 := by
  induction d with
  | nil => rfl
  | cons a t ih =>
    obtain ⟨k1, v1⟩ := a
    by_cases hk : k1 = k
    · have h10 : ¬ k1 = k0 := fun hh => h (hk ▸ hh)
      rw [replaceKey, if_pos hk, lookupKey, if_neg h10, lookupKey, if_neg h10]
    · rw [replaceKey, if_neg hk]
      by_cases h10 : k1 = k0
      · rw [lookupKey, if_pos h10, lookupKey, if_pos h10]
      · rw [lookupKey, if_neg h10, lookupKey, if_neg h10, ih]

lemma map_fst_replaceKey (d : FormatDict) (k : String) (v : ProcessedFormat) :
    (replaceKey d k v).map Prod.fst = d.map Prod.fst := by
  induction d with
  | nil => rfl
  | cons a t ih =>
    obtain ⟨k1, v1⟩ := a
    by_cases hk : k1 = k
    · rw [replaceKey, if_pos hk]
      rfl
    · rw [replaceKey, if_neg hk, List.map_cons, List.map_cons, ih]

lemma lookupKey_insertFormat (d : FormatDict) (p : ProcessedFormat) (k : String) :
    lookupKey (insertFormat d p) k =
      if k = keyOf p then chooseB (lookupKey d k) p else lookupKey d k := by
  unfold insertFormat
  cases hl : lookupKey d (keyOf p) with
  | none =>
    rw [lookupKey_append]
    by_cases hk : k = keyOf p
    · subst hk
      rw [hl]
      simp [lookupKey, chooseB]
    · rw [if_neg hk]
      cases h2 : lookupKey d k with
      | none =>
        rw [lookupKey, if_neg (fun hh => hk hh.symm)]
        rfl
      | some v => rfl
  | some old =>
    show lookupKey (if score old < score p then replaceKey d (keyOf p) p else d) k = _
    by_cases hs : score old < score p
    · rw [if_pos hs]
      by_cases hk : k = keyOf p
      · subst hk
        rw [if_pos rfl, hl]
        simp only [chooseB, if_pos hs]
        exact lookupKey_replaceKey_self hl
      · rw [if_neg hk, lookupKey_replaceKey_ne (fun hh => hk hh.symm)]
    · rw [if_neg hs]
      by_cases hk : k = keyOf p
      · subst hk
        rw [if_pos rfl, hl]
        simp only [chooseB, if_neg hs]
      · rw [if_neg hk]

lemma map_fst_insertFormat (d : FormatDict) (p : ProcessedFormat) :
    (insertFormat d p).map Prod.fst =
      if (lookupKey d (keyOf p)).isSome then d.map Prod.fst
      else d.map Prod.fst ++ [keyOf p] := by
  unfold insertFormat
  cases hl : lookupKey d (keyOf p) with
  | none => simp
  | some old =>
    by_cases hs : score old < score p
    · simp [hs, map_fst_replaceKey]
    · simp [hs]

lemma nodup_insertFormat {d : FormatDict} {p : ProcessedFormat}
    (h : (d.map Prod.fst).Nodup) : ((insertFormat d p).map Prod.fst).Nodup := by
  rw [map_fst_insertFormat]
  cases hl : lookupKey d (keyOf p) with
  | some old => simpa using h
  | none =>
    simp only [Option.isSome_none, Bool.false_eq_true, if_false]
    rw [List.nodup_append]
    exact ⟨h, List.nodup_singleton _,
      List.disjoint_singleton.mpr (lookupKey_eq_none_iff.mp hl)⟩

lemma nodup_foldl_insertFormat (ps : List ProcessedFormat) :
    ∀ {d : FormatDict}, (d.map Prod.fst).Nodup →
      ((ps.foldl insertFormat d).map Prod.fst).Nodup := by
  induction ps with
  | nil => intro d h; exact h
  | cons p t ih =>
    intro d h
    rw [List.foldl_cons]
    exact ih (nodup_insertFormat h)

lemma entries_key_foldl (ps : List ProcessedFormat) :
    ∀ {d : FormatDict}, (∀ e ∈ d, e.1 = keyOf e.2) →
      ∀ e ∈ ps.foldl insertFormat d, e.1 = keyOf e.2 := by
  induction ps with
  | nil => intro d h; exact h
  | cons p t ih =>
    intro d h
    rw [List.foldl_cons]
    apply ih
    intro e he
    rcases mem_insertFormat he with h' | h'
    · exact h e h'
    · rw [h']

lemma processedDict_nodup (fs : List FormatCandidate) :
    ((processedDict fs).map Prod.fst).Nodup :=
  nodup_foldl_insertFormat _ (by simp)

lemma processedDict_keys (fs : List FormatCandidate) :
    ∀ e ∈ processedDict fs, e.1 = keyOf e.2 :=
  entries_key_foldl _ (by simp)

lemma lookupKey_foldl (ps : List ProcessedFormat) :
    ∀ (d : FormatDict) (k : String),
      lookupKey (ps.foldl insertFormat d) k =
        (ps.filter (fun p => keyOf p == k)).foldl chooseB (lookupKey d k) := by
  induction ps with
  | nil => intro d k; rfl
  | cons p t ih =>
    intro d k
    rw [List.foldl_cons, ih, lookupKey_insertFormat]
    by_cases hk : k = keyOf p
    · rw [if_pos hk, List.filter_cons, if_pos (by simp [hk]), List.foldl_cons]
    · rw [if_neg hk, List.filter_cons,
        if_neg (by simp; exact fun hh => hk hh.symm)]

lemma maxScore_cons (p : ProcessedFormat) (t : List ProcessedFormat) :
    maxScore (p :: t) = max (score p) (maxScore t) := rfl

lemma foldl_chooseB_some (t : List ProcessedFormat) :
    ∀ v, t.foldl chooseB (some v) =
      if score v < maxScore t then t.find? (fun p => score p == maxScore t)
      else some v := by
  induction t with
  | nil => intro v; simp [maxScore]
  | cons q t' ih =>
    intro v
    rw [List.foldl_cons]
    have hm := maxScore_cons q t'
    by_cases hq : score v < score q
    · have h1 : chooseB (some v) q = some q := by simp [chooseB, hq]
      rw [h1, ih q]
      by_cases h2 : score q < maxScore t'
      · have hmax : maxScore (q :: t') = maxScore t' := by rw [hm]; omega
        rw [if_pos h2, if_pos (by rw [hmax]; omega), hmax,
          List.find?_cons_of_neg _ (by simp; omega)]
      · have hmax : maxScore (q :: t') = score q := by rw [hm]; omega
        rw [if_neg h2, if_pos (by rw [hmax]; omega), hmax,
          List.find?_cons_of_pos _ (by simp)]
    · have h1 : chooseB (some v) q = some v := by simp [chooseB, hq]
      rw [h1, ih v]
      by_cases h2 : score v < maxScore t'
      · have hmax : maxScore (q :: t') = maxScore t' := by rw [hm]; omega
        rw [if_pos h2, if_pos (by rw [hmax]; omega), hmax,
          List.find?_cons_of_neg _ (by simp; omega)]
      · rw [if_neg h2, if_neg (by rw [hm]; omega)]

lemma foldl_chooseB_none (l : List ProcessedFormat) :
    l.foldl chooseB none = l.find? (fun p => score p == maxScore l) := by
  cases l with
  | nil => rfl
  | cons p t =>
    have h1 : chooseB none p = some p := rfl
    rw [List.foldl_cons, h1, foldl_chooseB_some]
    have hm := maxScore_cons p t
    by_cases h2 : score p < maxScore t
    · have hmax : maxScore (p :: t) = maxScore t := by rw [hm]; omega
      rw [if_pos h2, hmax, List.find?_cons_of_neg _ (by simp; omega)]
    · have hmax : maxScore (p :: t) = score p := by rw [hm]; omega
      rw [if_neg h2, hmax, List.find?_cons_of_pos _ (by simp)]

lemma lookup_processedDict (fs : List FormatCandidate) (k : String) :
    lookupKey (processedDict fs) k =
      (candGroup fs k).find? (fun p => score p == maxScore (candGroup fs k)) := by
  unfold processedDict candGroup
  rw [lookupKey_foldl]
  exact foldl_chooseB_none _

lemma filter_map_snd_eq_lookup :
    ∀ {d : FormatDict}, (d.map Prod.fst).Nodup → (∀ e ∈ d, e.1 = keyOf e.2) →
      ∀ k, (d.map Prod.snd).filter (fun p => keyOf p == k) = (lookupKey d k).toList := by
  intro d
  induction d with
  | nil => intro _ _ k; rfl
  | cons a t ih =>
    obtain ⟨k1, v1⟩ := a
    intro hnd hk k
    have hk1 : k1 = keyOf v1 := hk (k1, v1) (List.mem_cons_self _ _)
    have hnd' : (t.map Prod.fst).Nodup := (List.nodup_cons.mp (by simpa using hnd)).2
    have hnotin : k1 ∉ t.map Prod.fst := (List.nodup_cons.mp (by simpa using hnd)).1
    have hkt : ∀ e ∈ t, e.1 = keyOf e.2 := fun e he => hk e (List.mem_cons_of_mem _ he)
    by_cases h1 : k1 = k
    · subst h1
      rw [List.map_cons, List.filter_cons, if_pos (by simp [hk1]), lookupKey, if_pos rfl]
      have hempty : (t.map Prod.snd).filter (fun p => keyOf p == k1) = [] := by
        rw [List.filter_eq_nil_iff]
        intro x hx hbeq
        obtain ⟨e, he, hex⟩ := List.mem_map.mp hx
        apply hnotin
        have : k1 = e.1 := by
          rw [hkt e he, hex]
          exact (beq_iff_eq.mp hbeq).symm
        rw [this]
        exact List.mem_map.mpr ⟨e, he, rfl⟩
      rw [hempty]
      rfl
    · rw [List.map_cons, List.filter_cons,
        if_neg (by simp [← hk1]; exact h1), lookupKey, if_neg h1]
      exact ih hnd' hkt k

lemma selectFormats_perm_vals (fs : List FormatCandidate) :
    (selectFormats fs).Perm ((processedDict fs).map Prod.snd) := by
  unfold selectFormats video_formats audio_formats
  exact ((sortFormats_perm _).append_right _).trans (List.filter_append_perm _ _)

lemma pairwise_keys_map_snd :
    ∀ {d : FormatDict}, (d.map Prod.fst).Nodup → (∀ e ∈ d, e.1 = keyOf e.2) →
      List.Pairwise (fun p q => keyOf p ≠ keyOf q) (d.map Prod.snd) := by
  intro d
  induction d with
  | nil => intro _ _; simp
  | cons a t ih =>
    obtain ⟨k1, v1⟩ := a
    intro hnd hk
    have hk1 : k1 = keyOf v1 := hk (k1, v1) (List.mem_cons_self _ _)
    have hnd' : (t.map Prod.fst).Nodup := (List.nodup_cons.mp (by simpa using hnd)).2
    have hnotin : k1 ∉ t.map Prod.fst := (List.nodup_cons.mp (by simpa using hnd)).1
    have hkt : ∀ e ∈ t, e.1 = keyOf e.2 := fun e he => hk e (List.mem_cons_of_mem _ he)
    rw [List.map_cons, List.pairwise_cons]
    refine ⟨?_, ih hnd' hkt⟩
    intro x hx heq
    obtain ⟨e, he, hex⟩ := List.mem_map.mp hx
    apply hnotin
    have : k1 = e.1 := by
      rw [hkt e he, hex, ← heq, ← hk1]
    rw [this]
    exact List.mem_map.mpr ⟨e, he, rfl⟩

/-! ## Claim theorem: deduplication -/

/-- Claim C1: the final format list holds at most one entry per
deduplication key; for every key, the entry kept is the first
encountered among the classified candidates of that key whose score —
filesize when nonzero, else bitrate times 1000, else 0 — attains the
group's maximum (so the highest score wins and ties keep the first
encountered). -/
theorem dedup_spec (fs : List FormatCandidate) (k : String) :
    List.Pairwise (fun p q => keyOf p ≠ keyOf q) (selectFormats fs) ∧
    (selectFormats fs).filter (fun p => keyOf p == k) =
      ((candGroup fs k).find?
        (fun p => score p == maxScore (candGroup fs k))).toList := by
  constructor
  · have hvals := pairwise_keys_map_snd (processedDict_nodup fs) (processedDict_keys fs)
    exact (List.Perm.pairwise_iff (fun h => h.symm)
      (selectFormats_perm_vals fs)).mpr hvals
  · have h1 := (selectFormats_perm_vals fs).filter (fun p => keyOf p == k)
    rw [filter_map_snd_eq_lookup (processedDict_nodup fs) (processedDict_keys fs) k,
      lookup_processedDict] at h1
    cases hf : (candGroup fs k).find? (fun p => score p == maxScore (candGroup fs k)) with
    | none =>
      rw [hf] at h1
      exact h1.eq_nil
    | some v =>
      rw [hf] at h1
      exact List.perm_singleton.mp h1

end VideoDownloader

namespace VideoDownloader

/-! ## Order lemmas for the sort key (claim C2) -/

lemma prioLt_iff {a b : Bool × Nat} :
    prioLt a b = true ↔ (a.1 = false ∧ b.1 = true) ∨ (a.1 = b.1 ∧ a.2 < b.2) := by
  obtain ⟨a1, a2⟩ := a
  obtain ⟨b1, b2⟩ := b
  cases a1 <;> cases b1 <;> simp [prioLt]

lemma prioLt_false_iff {a b : Bool × Nat} :
    prioLt a b = false ↔ ¬ ((a.1 = false ∧ b.1 = true) ∨ (a.1 = b.1 ∧ a.2 < b.2)) := by
  rw [← prioLt_iff]
  constructor
  · intro h hh
    rw [h] at hh
    cases hh
  · intro h
    exact Bool.eq_false_iff.mpr h

lemma prioLt_asymm {a b : Bool × Nat} (h : prioLt a b = true) : prioLt b a = false := by
  rw [prioLt_iff] at h
  rw [prioLt_false_iff]
  obtain ⟨a1, a2⟩ := a
  obtain ⟨b1, b2⟩ := b
  cases a1 <;> cases b1 <;> simp_all <;> omega

lemma prioLt_chain {q p x : Bool × Nat} (h1 : prioLt q x = false)
    (h2 : prioLt q p = true) : prioLt p x = false := by
  rw [prioLt_false_iff] at h1 ⊢
  rw [prioLt_iff] at h2
  obtain ⟨q1, q2⟩ := q
  obtain ⟨p1, p2⟩ := p
  obtain ⟨x1, x2⟩ := x
  cases q1 <;> cases p1 <;> cases x1 <;> simp_all <;> omega

lemma prioLt_ne {a b : Bool × Nat} (h : prioLt a b = true) : b ≠ a := by
  intro hba
  subst hba
  rw [prioLt_iff] at h
  rcases h with ⟨h1, h2⟩ | ⟨h1, h2⟩
  · rw [h1] at h2; cases h2
  · omega

lemma prioLt_chain_ne {q p x : Bool × Nat} (h1 : prioLt q x = false)
    (h2 : prioLt q p = true) : x ≠ p := by
  intro hxp
  subst hxp
  rw [prioLt_false_iff] at h1
  rw [prioLt_iff] at h2
  exact h1 h2

lemma mem_insertSorted {x p : ProcessedFormat} {l : List ProcessedFormat}
    (h : x ∈ insertSorted p l) : x = p ∨ x ∈ l := by
  have h2 := (insertSorted_perm p l).mem_iff.mp h
  simpa using h2

lemma pairwise_insertSorted {p : ProcessedFormat} : ∀ {l : List ProcessedFormat},
    l.Pairwise (fun x y => prioLt (format_priority x) (format_priority y) = false) →
    (insertSorted p l).Pairwise
      (fun x y => prioLt (format_priority x) (format_priority y) = false) := by
  intro l
  induction l with
  | nil => intro _; simp [insertSorted]
  | cons q t ih =>
    intro h
    rw [List.pairwise_cons] at h
    obtain ⟨hq, ht⟩ := h
    rw [insertSorted]
    by_cases hc : prioLt (format_priority q) (format_priority p) = true
    · rw [if_pos hc, List.pairwise_cons]
      constructor
      · intro x hx
        rcases List.mem_cons.mp hx with h' | h'
        · subst h'
          exact prioLt_asymm hc
        · exact prioLt_chain (hq x h') hc
      · rw [List.pairwise_cons]
        exact ⟨hq, ht⟩
    · rw [if_neg hc, List.pairwise_cons]
      constructor
      · intro x hx
        rcases mem_insertSorted hx with h' | h'
        · subst h'
          exact Bool.eq_false_iff.mpr hc
        · exact hq x h'
      · exact ih ht

lemma pairwise_sortFormats (l : List ProcessedFormat) :
    (sortFormats l).Pairwise
      (fun x y => prioLt (format_priority x) (format_priority y) = false) := by
  suffices h : ∀ acc,
      acc.Pairwise (fun x y => prioLt (format_priority x) (format_priority y) = false) →
      (l.foldl (fun a p => insertSorted p a) acc).Pairwise
        (fun x y => prioLt (format_priority x) (format_priority y) = false) by
    exact h [] (by simp)
  induction l with
  | nil => intro acc hacc; exact hacc
  | cons p t ih =>
    intro acc hacc
    rw [List.foldl_cons]
    exact ih _ (pairwise_insertSorted hacc)

lemma filter_insertSorted (p : ProcessedFormat) (k : Bool × Nat) :
    ∀ {l : List ProcessedFormat},
      l.Pairwise (fun x y => prioLt (format_priority x) (format_priority y) = false) →
      (insertSorted p l).filter (fun x => format_priority x == k) =
        l.filter (fun x => format_priority x == k) ++
          (if format_priority p == k then [p] else []) := by
  intro l
  induction l with
  | nil =>
    intro _
    rw [insertSorted, List.filter_cons]
    split <;> simp
  | cons q t ih =>
    intro h
    rw [List.pairwise_cons] at h
    obtain ⟨hq, ht⟩ := h
    rw [insertSorted]
    by_cases hc : prioLt (format_priority q) (format_priority p) = true
    · rw [if_pos hc]
      by_cases hp : (format_priority p == k) = true
      · have hk : format_priority p = k := beq_iff_eq.mp hp
        have hempty : (q :: t).filter (fun x => format_priority x == k) = [] := by
          rw [List.filter_eq_nil_iff]
          intro x hx hbeq
          have hxk : format_priority x = k := beq_iff_eq.mp hbeq
          rcases List.mem_cons.mp hx with h' | h'
          · subst h'
            exact (prioLt_ne hc) (by rw [hxk, hk])
          · exact (prioLt_chain_ne (hq x h') hc) (by rw [hxk, hk])
        simp [List.filter_cons, hp, hempty]
      · simp [List.filter_cons, hp]
    · rw [if_neg hc, List.filter_cons, List.filter_cons]
      by_cases hqk : (format_priority q == k) = true
      · rw [if_pos hqk, if_pos hqk, ih ht]
        rfl
      · rw [if_neg hqk, if_neg hqk, ih ht]

lemma sortFormats_filter (l : List ProcessedFormat) (k : Bool × Nat) :
    (sortFormats l).filter (fun x => format_priority x == k) =
      l.filter (fun x => format_priority x == k) := by
  suffices h : ∀ acc,
      acc.Pairwise (fun x y => prioLt (format_priority x) (format_priority y) = false) →
      (l.foldl (fun a p => insertSorted p a) acc).filter (fun x => format_priority x == k) =
        acc.filter (fun x => format_priority x == k) ++
          l.filter (fun x => format_priority x == k) by
    simpa using h [] (by simp)
  induction l with
  | nil => intro acc hacc; simp
  | cons p t ih =>
    intro acc hacc
    rw [List.foldl_cons, ih _ (pairwise_insertSorted hacc),
      filter_insertSorted p k hacc, List.filter_cons]
    by_cases hp : (format_priority p == k) = true
    · rw [if_pos hp, if_pos hp, List.append_assoc]
      rfl
    · rw [if_neg hp, if_neg hp, List.append_nil]

/-! ## Claim theorem: sorting -/

/-- Claim C2: the final format sequence is the video group followed by
the audio group in insertion order; the video group is a permutation of
its unsorted form arranged descending by the pair (has a
`"(with audio)"` label, numeric height parsed from the label) — so every
combined-stream entry precedes every video-only entry, and the sort is
stable: entries with equal sort keys keep their first-seen relative
order. -/
theorem sorting_spec (fs : List FormatCandidate) :
    selectFormats fs = sortFormats (video_formats fs) ++ audio_formats fs ∧
    (sortFormats (video_formats fs)).Perm (video_formats fs) ∧
    (sortFormats (video_formats fs)).Pairwise
      (fun x y => prioLt (format_priority x) (format_priority y) = false) ∧
    (∀ k : Bool × Nat,
      (sortFormats (video_formats fs)).filter (fun x => format_priority x == k) =
        (video_formats fs).filter (fun x => format_priority x == k)) ∧
    (sortFormats (video_formats fs)).Pairwise
      (fun x y => hasWithAudio y.quality = true → hasWithAudio x.quality = true) := by
  refine ⟨rfl, sortFormats_perm _, pairwise_sortFormats _,
    fun k => sortFormats_filter _ k, ?_⟩
  apply (pairwise_sortFormats (video_formats fs)).imp
  intro x y h hy
  by_cases hx : hasWithAudio x.quality = true
  · exact hx
  · have hxf : hasWithAudio x.quality = false := Bool.eq_false_iff.mpr hx
    rw [prioLt_false_iff] at h
    exact absurd (Or.inl ⟨hxf, hy⟩) h

end VideoDownloader

namespace VideoDownloader

/-- Claim C3 witness: the classification theorem applied to the concrete
combined-stream candidate `witCand` and the singleton input list. -/
theorem classification_spec_witness :
    classify witCand = some ⟨witCand.format_id,
      toString witCand.height ++ "p (with audio)", witCand.ext, FType.video,
      effFilesize witCand, witCand.tbr, witCand.height, witCand.width⟩ ∧
    (⟨"22", "720p (with audio)", "mp4", FType.video, 1000, 0, 720,
      1280⟩ : ProcessedFormat).format_id ≠ "" :=
  ⟨(classification_spec witCand [witCand]).2.1 (by decide) (by decide)
      (by decide) (by decide) (by decide),
   (classification_spec witCand [witCand]).2.2.2.2.2.2
      ⟨"22", "720p (with audio)", "mp4", FType.video, 1000, 0, 720, 1280⟩
      (by decide)⟩

end VideoDownloader
